import Mathlib

/-!
Verification of the KCS text-to-WAV encoder (TextToWavCLI.py).

The program is embedded shallowly: the text is a `List Char`, ByteGroups
(Python strings of binary digits) are `List Char`, PCM sample streams are
`List Nat`, and the process-wide tunable globals are gathered in an
`EncodingConfig` record.  Python's `int` truncating divisions are modelled
with `Nat` division.
-/

/-- The mutable module-level parameters of the script
(FRAMERATE, ONES_FREQ, ZERO_FREQ, AMPLITUDE, CENTER, LEADER, PARITY, STARTBIT). -/
structure EncodingConfig where
  FRAMERATE : Nat
  ONES_FREQ : Nat
  ZERO_FREQ : Nat
  AMPLITUDE : Nat
  CENTER : Nat
  LEADER : Nat
  PARITY : Nat
  STARTBIT : Nat
deriving DecidableEq

/-- The default configuration at the top of the script. -/
def cfg0 : EncodingConfig := ⟨22050, 2400, 800, 225, 128, 14, 0, 0⟩

/-- Embeds `make_square_wave(freq, framerate)`: `n = int(framerate/freq/2)`
half-cycle samples at `CENTER-AMPLITUDE//2` then `n` at `CENTER+AMPLITUDE//2`. -/
def make_square_wave (cfg : EncodingConfig) (freq : Nat) : List Nat :=
  let n := cfg.FRAMERATE / freq / 2
  List.replicate n (cfg.CENTER - cfg.AMPLITUDE / 2) ++
    List.replicate n (cfg.CENTER + cfg.AMPLITUDE / 2)

/-- The cached `one_pulse = make_square_wave(ONES_FREQ, FRAMERATE)`. -/
def one_pulse (cfg : EncodingConfig) : List Nat := make_square_wave cfg cfg.ONES_FREQ

/-- The cached `zero_pulse = make_square_wave(ZERO_FREQ, FRAMERATE)`. -/
def zero_pulse (cfg : EncodingConfig) : List Nat := make_square_wave cfg cfg.ZERO_FREQ

/-- Embeds the helper `is_even(number)`. -/
def is_even (number : Nat) : Bool := number % 2 == 0

/-- Fuel-driven core of Python's `bin(n)[2:]` for `n > 0` (structural
recursion so that the kernel can evaluate it). -/
def pyBinAux : Nat → Nat → List Char
  | 0, _ => []
  | fuel + 1, n =>
    if n = 0 then []
    else pyBinAux fuel (n / 2) ++ [if n % 2 = 1 then '1' else '0']

/-- Binary digits of `n`, most significant first; empty for `n = 0`. -/
def pyBinCore (n : Nat) : List Char := pyBinAux n n

/-- Embeds `bin(n)[2:]` (so `pyBin 0 = "0"` as in Python). -/
def pyBin (n : Nat) : List Char := if n = 0 then ['0'] else pyBinCore n

/-- Embeds `str.zfill(w)`: pad with leading zeros up to width `w`
(no truncation when the string is already longer). -/
def zfill (w : Nat) (s : List Char) : List Char :=
  List.replicate (w - s.length) '0' ++ s

/-- Embeds `bin(n)[2:].zfill(w)`. -/
def toBin (n w : Nat) : List Char := zfill w (pyBin n)

/-- Embeds `int(number_str)` on a run of decimal digits. -/
def natOfDigits (ds : List Char) : Nat :=
  ds.foldl (fun a c => 10 * a + (c.toNat - 48)) 0

/-- Whitespace stripped by Python's `str.lstrip()` (ASCII part). -/
def isPySpace (c : Char) : Bool :=
  c = ' ' || c = '\t' || c = '\n' || c = '\r' || c.toNat == 11 || c.toNat == 12

/-- Embeds `str.lstrip()`. -/
def lstrip (s : List Char) : List Char := s.dropWhile isPySpace

/-- Embeds `Extract_Number_String`: match a leading run of decimal digits
(regex `^(\d+)(.*)`); on success return the parsed label and the left-stripped
remainder, else `none` (Python returns the pair `(None, text)`). -/
def Extract_Number_String (line : List Char) : Option (Nat × List Char) :=
  let ds := line.takeWhile Char.isDigit
  if ds = [] then none
  else some (natOfDigits ds, lstrip (line.dropWhile Char.isDigit))

/-- UTF-8 bytes of one scalar value, as produced by `str.encode('utf-8')`. -/
def utf8Char (c : Char) : List Nat :=
  let n := c.toNat
  if n < 128 then [n]
  else if n < 2048 then [192 + n / 64, 128 + n % 64]
  else if n < 65536 then [224 + n / 4096, 128 + (n / 64) % 64, 128 + n % 64]
  else [240 + n / 262144, 128 + (n / 4096) % 64, 128 + (n / 64) % 64, 128 + n % 64]

/-- UTF-8 encoding of a string, as `str.encode('utf-8')`. -/
def utf8Encode (s : List Char) : List Nat := s.flatMap utf8Char

/-- The ByteGroups one source line contributes inside `Create_BinData`'s loop:
nothing when no label matches, else `label_byte[0:8]`, `label_byte[8:]`
(with `label_byte = bin(label)[2:].zfill(16)`), then `bin(byte)[2:].zfill(8)`
for each UTF-8 byte of the body `code + "\r"`. -/
def lineGroups (line : List Char) : List (List Char) :=
  match Extract_Number_String line with
  | none => []
  | some (label, code) =>
    let byte_code := utf8Encode (code ++ ['\r'])
    let label_byte := toBin label 16
    label_byte.take 8 :: label_byte.drop 8 :: byte_code.map (fun b => toBin b 8)

/-- All data ByteGroups of the line list, in input order (the contents of
`code_array` before the terminator is appended). -/
def codeGroups (ls : List (List Char)) : List (List Char) := ls.flatMap lineGroups

/-- The two size-header groups for a data ByteGroup count `n`:
`bin(n+256)[2:].zfill(16)` sliced as `[0:8]` and `[8:]`. -/
def headerGroups (n : Nat) : List (List Char) :=
  [(toBin (n + 256) 16).take 8, (toBin (n + 256) 16).drop 8]

/-- Embeds the loop body and epilogue of `Create_BinData`, starting from the
already split lines: build `code_array`, take `byte_size = len(code_array)`,
append the terminator group, prepend the two header groups. -/
def Create_BinDataLines (ls : List (List Char)) : List (List Char) :=
  let code_array := ls.foldl (fun acc line => acc ++ lineGroups line) []
  let byte_size := code_array.length
  let start := toBin (byte_size + 256) 16
  start.take 8 :: start.drop 8 :: (code_array ++ [toBin 0 8])

/-- Embeds `text_content.split('\n')`. -/
def splitNl : List Char → List (List Char)
  | [] => [[]]
  | c :: rest =>
    if c = '\n' then [] :: splitNl rest
    else
      match splitNl rest with
      | [] => [[c]]
      | g :: gs => (c :: g) :: gs

/-- Embeds `Create_BinData` on the text content of the source file. -/
def Create_BinData (text : List Char) : List (List Char) :=
  Create_BinDataLines (splitNl text)

/-- One step of `Encode_Data`'s data-bit loop: extend the waveform with the
pulse for the bit character and keep the running count `p` of 1 bits. -/
def encStep (cfg : EncodingConfig) (r : List Nat × Nat) (bit : Char) : List Nat × Nat :=
  if bit = '1' then (r.1 ++ one_pulse cfg, r.2 + 1) else (r.1 ++ zero_pulse cfg, r.2)

/-- Embeds `Encode_Data(bytes)`: start-bit pulse, one pulse per bit character,
then the parity pulse chosen from `PARITY` and the count `p`. -/
def Encode_Data (cfg : EncodingConfig) (g : List Char) : List Nat :=
  let encoded := if cfg.STARTBIT = 0 then zero_pulse cfg else one_pulse cfg
  let r := g.foldl (encStep cfg) (encoded, 0)
  if cfg.PARITY = 0 then
    if r.2 = 0 ∨ is_even r.2 = true then r.1 ++ one_pulse cfg
    else r.1 ++ zero_pulse cfg
  else
    if is_even r.2 = false then r.1 ++ one_pulse cfg
    else r.1 ++ zero_pulse cfg

/-- The start-bit pulse of a frame. -/
def startPulse (cfg : EncodingConfig) : List Nat :=
  if cfg.STARTBIT = 0 then zero_pulse cfg else one_pulse cfg

/-- The pulse encoding one data-bit character. -/
def bitPulse (cfg : EncodingConfig) (bit : Char) : List Nat :=
  if bit = '1' then one_pulse cfg else zero_pulse cfg

/-- The parity bit the encoder sends for a count `p` of 1 data bits:
odd mode (PARITY = 0) sends 1 when `p` is even (including 0),
even mode sends 1 when `p` is odd. -/
def parityBit (cfg : EncodingConfig) (p : Nat) : Nat :=
  if cfg.PARITY = 0 then
    if p = 0 ∨ is_even p = true then 1 else 0
  else
    if is_even p = false then 1 else 0

/-- The parity pulse the encoder appends after the data bits of `g`. -/
def parityPulse (cfg : EncodingConfig) (g : List Char) : List Nat :=
  if parityBit cfg (g.count '1') = 1 then one_pulse cfg else zero_pulse cfg

/-- The 10 pulses of one frame: start bit, the 8 data bits most significant
first, parity bit. -/
def framePulses (cfg : EncodingConfig) (g : List Char) : List (List Nat) :=
  startPulse cfg :: (g.map (bitPulse cfg) ++ [parityPulse cfg g])

/-- Big-endian value of a string of binary digit characters. -/
def bitsVal (g : List Char) : Nat :=
  g.foldl (fun a c => 2 * a + (if c = '1' then 1 else 0)) 0

/-- Embeds Python sequence repetition `l * k` (k concatenated copies). -/
def listMul (l : List Nat) (k : Nat) : List Nat := (List.replicate k l).flatten

/-- Embeds the sample stream written by `Write_Wav`: the leader
`one_pulse * (int(FRAMERATE/len(one_pulse)) * LEADER)`, then `Encode_Data`
of every ByteGroup in order, then three raw `zero_pulse`s. -/
def Write_Wav (cfg : EncodingConfig) (data : List (List Char)) : List Nat :=
  let leader := listMul (one_pulse cfg) (cfg.FRAMERATE / (one_pulse cfg).length * cfg.LEADER)
  let afterData := data.foldl (fun acc g => acc ++ Encode_Data cfg g) leader
  afterData ++ zero_pulse cfg ++ zero_pulse cfg ++ zero_pulse cfg

example : make_square_wave cfg0 2400 = [16, 16, 16, 16, 240, 240, 240, 240] := by decide
example : toBin 13 8 = ['0', '0', '0', '0', '1', '1', '0', '1'] := by decide
example : Extract_Number_String ['1', '0', ' ', 'x'] = some (10, ['x']) := by decide
example : bitsVal (toBin 65535 16) = 65535 := by decide
example : splitNl ['a', '\n'] = [['a'], []] := by decide
example : Create_BinDataLines [['a'], []] =
    [toBin 1 8, toBin 0 8, toBin 0 8] := by decide

/-! Helper lemmas about the embedded definitions. -/

/-- Appending through a left fold is concatenation of the per-element blocks. -/
lemma foldl_append_eq_flatMap {α β : Type} (f : α → List β) :
    ∀ (l : List α) (acc : List β),
      l.foldl (fun a x => a ++ f x) acc = acc ++ l.flatMap f := by
  intro l
  induction l with
  | nil => intro acc; simp
  | cons x xs ih => intro acc; simp [ih, List.append_assoc]

/-- `Create_BinData`'s result is the two header groups, the data groups and
the terminator group, with the header computed from the data group count. -/
lemma create_binDataLines_eq (ls : List (List Char)) :
    Create_BinDataLines ls
      = headerGroups (codeGroups ls).length ++ codeGroups ls ++ [toBin 0 8] := by
  simp [Create_BinDataLines, headerGroups, codeGroups, foldl_append_eq_flatMap]

lemma pyBinAux_zero_val (fuel : Nat) : pyBinAux fuel 0 = [] := by
  cases fuel <;> simp [pyBinAux]

lemma pyBinAux_congr : ∀ (f g n : Nat), n ≤ f → n ≤ g → pyBinAux f n = pyBinAux g n := by
  intro f
  induction f with
  | zero =>
    intro g n hf _
    have : n = 0 := Nat.le_zero.mp hf
    subst this
    rw [pyBinAux_zero_val, pyBinAux_zero_val]
  | succ f ih =>
    intro g n hf hg
    by_cases h0 : n = 0
    · subst h0; rw [pyBinAux_zero_val, pyBinAux_zero_val]
    · cases g with
      | zero => omega
      | succ g =>
        show pyBinAux (f + 1) n = pyBinAux (g + 1) n
        rw [pyBinAux, pyBinAux]
        rw [if_neg h0, if_neg h0]
        have hlt : n / 2 < n := Nat.div_lt_self (Nat.pos_of_ne_zero h0) (by omega)
        rw [ih (g) (n / 2) (by omega) (by omega)]

/-- Recursive characterization of `bin(n)[2:]` for positive `n`. -/
lemma pyBinCore_succ (n : Nat) (h : n ≠ 0) :
    pyBinCore n = pyBinCore (n / 2) ++ [if n % 2 = 1 then '1' else '0'] := by
  obtain ⟨m, rfl⟩ : ∃ m, n = m + 1 := ⟨n - 1, by omega⟩
  show pyBinAux (m + 1) (m + 1) = pyBinAux ((m + 1) / 2) ((m + 1) / 2) ++ _
  rw [pyBinAux, if_neg h]
  have hlt : (m + 1) / 2 < m + 1 := Nat.div_lt_self (by omega) (by omega)
  rw [pyBinAux_congr m ((m + 1) / 2) ((m + 1) / 2) (by omega) (by omega)]

lemma bitsVal_foldl_aux (l : List Char) :
    ∀ a : Nat,
      l.foldl (fun a c => 2 * a + (if c = '1' then 1 else 0)) a
        = a * 2 ^ l.length + bitsVal l := by
  induction l with
  | nil => intro a; simp [bitsVal]
  | cons c l ih =>
    intro a
    have hc : bitsVal (c :: l)
        = (if c = '1' then 1 else 0) * 2 ^ l.length + bitsVal l := by
      show l.foldl _ (2 * 0 + (if c = '1' then 1 else 0)) = _
      rw [ih]
      ring_nf
    show l.foldl _ (2 * a + (if c = '1' then 1 else 0)) = a * 2 ^ (l.length + 1) + bitsVal (c :: l)
    rw [ih, hc, pow_succ]
    ring

lemma bitsVal_append (a b : List Char) :
    bitsVal (a ++ b) = bitsVal a * 2 ^ b.length + bitsVal b := by
  show (a ++ b).foldl _ 0 = _
  rw [List.foldl_append]
  exact bitsVal_foldl_aux b _

lemma bitsVal_replicate_zero (k : Nat) : bitsVal (List.replicate k '0') = 0 := by
  induction k with
  | zero => rfl
  | succ k ih =>
    show bitsVal (['0'] ++ List.replicate k '0') = 0
    rw [bitsVal_append, ih]
    simp [bitsVal]

lemma bitsVal_zfill (w : Nat) (s : List Char) : bitsVal (zfill w s) = bitsVal s := by
  unfold zfill
  rw [bitsVal_append, bitsVal_replicate_zero]
  simp

lemma bitsVal_pyBinCore (n : Nat) : bitsVal (pyBinCore n) = n := by
  induction n using Nat.strong_induction_on with
  | _ n ih =>
    by_cases h0 : n = 0
    · subst h0; rfl
    · rw [pyBinCore_succ n h0, bitsVal_append,
        ih (n / 2) (Nat.div_lt_self (Nat.pos_of_ne_zero h0) (by omega))]
      rcases Nat.mod_two_eq_zero_or_one n with h | h <;> simp [bitsVal, h] <;> omega

lemma bitsVal_pyBin (n : Nat) : bitsVal (pyBin n) = n := by
  by_cases h0 : n = 0
  · subst h0; rfl
  · simp [pyBin, h0, bitsVal_pyBinCore]

lemma bitsVal_toBin (n w : Nat) : bitsVal (toBin n w) = n := by
  unfold toBin
  rw [bitsVal_zfill, bitsVal_pyBin]

lemma pyBinCore_length_le : ∀ (w n : Nat), n < 2 ^ w → (pyBinCore n).length ≤ w := by
  intro w
  induction w with
  | zero =>
    intro n h
    have : n = 0 := by simpa using Nat.lt_one_iff.mp (by simpa using h)
    subst this
    simp [pyBinCore, pyBinAux]
  | succ w ih =>
    intro n h
    by_cases h0 : n = 0
    · subst h0; simp [pyBinCore, pyBinAux_zero_val]
    · rw [pyBinCore_succ n h0]
      have hdiv : n / 2 < 2 ^ w := by
        rw [pow_succ] at h
        omega
      have := ih (n / 2) hdiv
      simp [List.length_append]
      omega

lemma pyBinCore_length_ge : ∀ (w n : Nat), 2 ^ w ≤ n → w + 1 ≤ (pyBinCore n).length := by
  intro w
  induction w with
  | zero =>
    intro n h
    have h0 : n ≠ 0 := by simpa using Nat.pos_iff_ne_zero.mp (by omega)
    rw [pyBinCore_succ n h0]
    simp [List.length_append]
  | succ w ih =>
    intro n h
    have h0 : n ≠ 0 := by
      have : 0 < 2 ^ (w + 1) := Nat.pos_pow_of_pos _ (by omega)
      omega
    rw [pyBinCore_succ n h0]
    have hdiv : 2 ^ w ≤ n / 2 := by
      rw [pow_succ] at h
      omega
    have := ih (n / 2) hdiv
    simp [List.length_append]
    omega

lemma pyBin_length_le (n w : Nat) (h : n < 2 ^ w) (hw : 0 < w) : (pyBin n).length ≤ w := by
  by_cases h0 : n = 0
  · subst h0; simpa [pyBin] using hw
  · simpa [pyBin, h0] using pyBinCore_length_le w n h

lemma pyBin_length_ge (n w : Nat) (h : 2 ^ w ≤ n) : w + 1 ≤ (pyBin n).length := by
  have h0 : n ≠ 0 := by
    have : 0 < 2 ^ w := Nat.pos_pow_of_pos _ (by omega)
    omega
  simpa [pyBin, h0] using pyBinCore_length_ge w n h

lemma toBin_length (n w : Nat) (h : n < 2 ^ w) (hw : 0 < w) : (toBin n w).length = w := by
  have hle := pyBin_length_le n w h hw
  simp [toBin, zfill, List.length_append]
  omega

/-- When the binary representation is already at least `w` digits long,
`zfill(w)` changes nothing. -/
lemma toBin_eq_pyBin (n w : Nat) (h : w ≤ (pyBin n).length) : toBin n w = pyBin n := by
  simp [toBin, zfill, Nat.sub_eq_zero_of_le h]

/-- Maximal munch: `takeWhile`/`dropWhile` split an explicit prefix whose
elements all satisfy `p` from a remainder whose head does not. -/
lemma takeWhile_dropWhile_append (p : Char → Bool) :
    ∀ (ds r : List Char), (∀ c ∈ ds, p c = true) →
      (∀ c, r.head? = some c → p c = false) →
      (ds ++ r).takeWhile p = ds ∧ (ds ++ r).dropWhile p = r := by
  intro ds
  induction ds with
  | nil =>
    intro r _ hr
    cases r with
    | nil => simp
    | cons c rest =>
      have hc : p c = false := hr c rfl
      simp [List.takeWhile_cons, List.dropWhile_cons, hc]
  | cons d ds ih =>
    intro r hds hr
    have hd : p d = true := hds d (List.mem_cons_self d ds)
    have := ih r (fun c hc => hds c (List.mem_cons_of_mem d hc)) hr
    simp [List.takeWhile_cons, List.dropWhile_cons, hd, this.1, this.2]

/-- `Extract_Number_String` on a line that starts with a nonempty digit run:
the run parses to the label, the remainder is left-stripped. -/
lemma extract_number_append (ds r : List Char) (h1 : ds ≠ [])
    (h2 : ∀ c ∈ ds, c.isDigit = true)
    (h3 : ∀ c, r.head? = some c → c.isDigit = false) :
    Extract_Number_String (ds ++ r) = some (natOfDigits ds, lstrip r) := by
  obtain ⟨ht, hd⟩ := takeWhile_dropWhile_append Char.isDigit ds r h2 h3
  simp [Extract_Number_String, ht, hd, h1]

/-- The data-bit loop of `Encode_Data` appends one pulse per bit character and
counts the characters equal to 1. -/
lemma encode_foldl (cfg : EncodingConfig) :
    ∀ (g : List Char) (acc : List Nat) (p : Nat),
      g.foldl (encStep cfg) (acc, p) = (acc ++ g.flatMap (bitPulse cfg), p + g.count '1') := by
  intro g
  induction g with
  | nil => intro acc p; simp
  | cons c g ih =>
    intro acc p
    by_cases hc : c = '1'
    · simp [encStep, hc, ih, bitPulse, List.append_assoc, List.count_cons]
      omega
    · simp [encStep, hc, ih, bitPulse, List.append_assoc, List.count_cons]

/-- `Encode_Data` is the start pulse, the data pulses and the parity pulse. -/
lemma encode_data_eq (cfg : EncodingConfig) (g : List Char) :
    Encode_Data cfg g = startPulse cfg ++ g.flatMap (bitPulse cfg) ++ parityPulse cfg g := by
  unfold Encode_Data startPulse parityPulse parityBit
  simp only [encode_foldl, Nat.zero_add]
  by_cases hp : cfg.PARITY = 0
  · by_cases hc : (g.count '1' = 0 ∨ is_even (g.count '1') = true) <;>
      simp_all [List.append_assoc]
  · by_cases hc : is_even (g.count '1') = false <;>
      simp_all [List.append_assoc]

/-! Claim theorems. -/

/-- C2: for every 8-bit input and both parity modes, `Encode_Data` emits
exactly one parity pulse, and the count of 1 data bits plus the parity bit is
odd in odd mode (PARITY = 0) and even in even mode (PARITY = 1). -/
theorem encode_parity (cfg : EncodingConfig) (b : Nat) (hb : b < 256) :
    Encode_Data cfg (toBin b 8)
        = startPulse cfg ++ (toBin b 8).flatMap (bitPulse cfg) ++ parityPulse cfg (toBin b 8)
    ∧ (cfg.PARITY = 0 →
        ((toBin b 8).count '1' + parityBit cfg ((toBin b 8).count '1')) % 2 = 1)
    ∧ (cfg.PARITY = 1 →
        ((toBin b 8).count '1' + parityBit cfg ((toBin b 8).count '1')) % 2 = 0) := by
  refine ⟨encode_data_eq cfg (toBin b 8), ?_, ?_⟩
  · intro hp
    rcases Nat.mod_two_eq_zero_or_one ((toBin b 8).count '1') with h | h
    · have : parityBit cfg ((toBin b 8).count '1') = 1 := by
        simp [parityBit, hp, is_even, h]
      omega
    · have hne : (toBin b 8).count '1' ≠ 0 := by omega
      have : parityBit cfg ((toBin b 8).count '1') = 0 := by
        simp [parityBit, hp, is_even, h, hne]
      omega
  · intro hp
    rcases Nat.mod_two_eq_zero_or_one ((toBin b 8).count '1') with h | h
    · have : parityBit cfg ((toBin b 8).count '1') = 0 := by
        simp [parityBit, hp, is_even, h]
      omega
    · have : parityBit cfg ((toBin b 8).count '1') = 1 := by
        simp [parityBit, hp, is_even, h]
      omega

/-- C2 witness at the default configuration (odd parity) and byte 5. -/
theorem encode_parity_witness :
    (5 : Nat) < 256
    ∧ (Encode_Data cfg0 (toBin 5 8)
          = startPulse cfg0 ++ (toBin 5 8).flatMap (bitPulse cfg0) ++ parityPulse cfg0 (toBin 5 8)
       ∧ (cfg0.PARITY = 0 →
            ((toBin 5 8).count '1' + parityBit cfg0 ((toBin 5 8).count '1')) % 2 = 1)
       ∧ (cfg0.PARITY = 1 →
            ((toBin 5 8).count '1' + parityBit cfg0 ((toBin 5 8).count '1')) % 2 = 0)) :=
  ⟨by decide, encode_parity cfg0 5 (by decide)⟩

/-- C3: for every 8-bit ByteGroup the encoder output is the concatenation of
exactly 10 pulses (start, 8 data bits most significant first, parity), with no
stop pulse; the ByteGroup is the most-significant-first binary representation
of the byte. -/
theorem encode_frame (cfg : EncodingConfig) (b : Nat) (hb : b < 256) :
    Encode_Data cfg (toBin b 8) = (framePulses cfg (toBin b 8)).flatten
    ∧ (framePulses cfg (toBin b 8)).length = 10
    ∧ bitsVal (toBin b 8) = b := by
  have hb2 : b < 2 ^ 8 := by norm_num; omega
  have hlen : (toBin b 8).length = 8 := toBin_length b 8 hb2 (by omega)
  refine ⟨?_, ?_, bitsVal_toBin b 8⟩
  · rw [encode_data_eq]
    simp [framePulses, List.flatten_append, List.flatMap_def, List.append_assoc]
  · simp [framePulses, hlen]

/-- C3 witness at the default configuration and byte 65. -/
theorem encode_frame_witness :
    (65 : Nat) < 256
    ∧ (Encode_Data cfg0 (toBin 65 8) = (framePulses cfg0 (toBin 65 8)).flatten
       ∧ (framePulses cfg0 (toBin 65 8)).length = 10
       ∧ bitsVal (toBin 65 8) = 65) :=
  ⟨by decide, encode_frame cfg0 65 (by decide)⟩

/-- C5: the stream written by `Write_Wav` is the leader (the one pulse
repeated `floor(FRAMERATE / len(one_pulse)) * LEADER` times), then the frame
encoding of every ByteGroup in order, then exactly 3 raw zero pulses. -/
theorem write_wav_stream (cfg : EncodingConfig) (data : List (List Char))
    (h : 0 < (one_pulse cfg).length) :
    Write_Wav cfg data
      = listMul (one_pulse cfg) (cfg.FRAMERATE / (one_pulse cfg).length * cfg.LEADER)
        ++ data.flatMap (Encode_Data cfg)
        ++ (zero_pulse cfg ++ zero_pulse cfg ++ zero_pulse cfg) := by
  simp only [Write_Wav, foldl_append_eq_flatMap, List.append_assoc]

/-- C5 witness at the default configuration on a one-group stream. -/
theorem write_wav_stream_witness :
    0 < (one_pulse cfg0).length
    ∧ Write_Wav cfg0 [toBin 0 8]
        = listMul (one_pulse cfg0) (cfg0.FRAMERATE / (one_pulse cfg0).length * cfg0.LEADER)
          ++ [toBin 0 8].flatMap (Encode_Data cfg0)
          ++ (zero_pulse cfg0 ++ zero_pulse cfg0 ++ zero_pulse cfg0) :=
  ⟨by decide, write_wav_stream cfg0 [toBin 0 8] (by decide)⟩

/-- C6: `make_square_wave` returns `2 * floor(FRAMERATE/f/2)` samples, the
first half at `CENTER - AMPLITUDE/2` and the second half at
`CENTER + AMPLITUDE/2` (truncating division); the hypotheses keep the two
levels inside the unsigned byte range the Python `bytearray` requires. -/
theorem make_square_wave_spec (cfg : EncodingConfig) (f : Nat) (hf : 0 < f)
    (ha : cfg.AMPLITUDE / 2 ≤ cfg.CENTER) (hc : cfg.CENTER + cfg.AMPLITUDE / 2 ≤ 255) :
    (make_square_wave cfg f).length = 2 * (cfg.FRAMERATE / f / 2)
    ∧ (make_square_wave cfg f).take (cfg.FRAMERATE / f / 2)
        = List.replicate (cfg.FRAMERATE / f / 2) (cfg.CENTER - cfg.AMPLITUDE / 2)
    ∧ (make_square_wave cfg f).drop (cfg.FRAMERATE / f / 2)
        = List.replicate (cfg.FRAMERATE / f / 2) (cfg.CENTER + cfg.AMPLITUDE / 2) := by
  simp only [make_square_wave]
  refine ⟨?_, ?_, ?_⟩
  · rw [two_mul]; simp
  · rw [List.take_left' (List.length_replicate _ _)]
  · rw [List.drop_left' (List.length_replicate _ _)]

/-- C6 witness at the default configuration and the one-tone frequency. -/
theorem make_square_wave_spec_witness :
    0 < 2400
    ∧ cfg0.AMPLITUDE / 2 ≤ cfg0.CENTER
    ∧ cfg0.CENTER + cfg0.AMPLITUDE / 2 ≤ 255
    ∧ ((make_square_wave cfg0 2400).length = 2 * (cfg0.FRAMERATE / 2400 / 2)
       ∧ (make_square_wave cfg0 2400).take (cfg0.FRAMERATE / 2400 / 2)
           = List.replicate (cfg0.FRAMERATE / 2400 / 2) (cfg0.CENTER - cfg0.AMPLITUDE / 2)
       ∧ (make_square_wave cfg0 2400).drop (cfg0.FRAMERATE / 2400 / 2)
           = List.replicate (cfg0.FRAMERATE / 2400 / 2) (cfg0.CENTER + cfg0.AMPLITUDE / 2)) :=
  ⟨by decide, by decide, by decide,
    make_square_wave_spec cfg0 2400 (by decide) (by decide) (by decide)⟩

/-- A configuration the prompt layer accepts whose one-tone half-cycle sample
count `int(4800/4800/2)` is 0. -/
def cfg4800 : EncodingConfig := ⟨4800, 4800, 800, 225, 128, 14, 0, 0⟩

/-- C9: with FRAMERATE = 4800 and ONES_FREQ = 4800 the half-cycle count is 0,
yet `make_square_wave` returns an empty pulse instead of signalling a
configuration error: no validation exists (the Python run only dies later,
with a ZeroDivisionError in `Write_Wav`, after the output file is opened). -/
theorem zero_halfcycle_no_rejection :
    cfg4800.FRAMERATE / cfg4800.ONES_FREQ / 2 = 0
    ∧ make_square_wave cfg4800 cfg4800.ONES_FREQ = []
    ∧ one_pulse cfg4800 = [] := by decide

/-- C4: a line that begins with a nonempty run of decimal digits contributes
exactly two label groups holding the big-endian 16-bit label, then one group
per UTF-8 byte of the left-stripped remainder with a carriage return
appended.  The label bound matches the 16-bit field of the claim. -/
theorem create_labeled_line (ds r : List Char) (h1 : ds ≠ [])
    (h2 : ∀ c ∈ ds, c.isDigit = true)
    (h3 : ∀ c, r.head? = some c → c.isDigit = false)
    (h4 : natOfDigits ds < 65536) :
    lineGroups (ds ++ r)
        = (toBin (natOfDigits ds) 16).take 8 :: (toBin (natOfDigits ds) 16).drop 8 ::
            (utf8Encode (lstrip r ++ ['\r'])).map (fun b => toBin b 8)
    ∧ ((toBin (natOfDigits ds) 16).take 8).length = 8
    ∧ ((toBin (natOfDigits ds) 16).drop 8).length = 8
    ∧ bitsVal ((toBin (natOfDigits ds) 16).take 8) * 256
        + bitsVal ((toBin (natOfDigits ds) 16).drop 8) = natOfDigits ds := by
  have hx := extract_number_append ds r h1 h2 h3
  have h16 : (toBin (natOfDigits ds) 16).length = 16 :=
    toBin_length _ 16 (by norm_num; omega) (by omega)
  refine ⟨?_, ?_, ?_, ?_⟩
  · simp [lineGroups, hx]
  · simp [List.length_take, h16]
  · simp [List.length_drop, h16]
  · conv_rhs => rw [← bitsVal_toBin (natOfDigits ds) 16]
    conv_rhs => rw [← List.take_append_drop 8 (toBin (natOfDigits ds) 16)]
    rw [bitsVal_append, List.length_drop, h16]
    norm_num

/-- C4 witness at the concrete line 10 x (digits 1 0, remainder space x). -/
theorem create_labeled_line_witness :
    (['1', '0'] : List Char) ≠ []
    ∧ natOfDigits ['1', '0'] < 65536
    ∧ (lineGroups (['1', '0'] ++ [' ', 'x'])
          = (toBin (natOfDigits ['1', '0']) 16).take 8
              :: (toBin (natOfDigits ['1', '0']) 16).drop 8
              :: (utf8Encode (lstrip [' ', 'x'] ++ ['\r'])).map (fun b => toBin b 8)
       ∧ ((toBin (natOfDigits ['1', '0']) 16).take 8).length = 8
       ∧ ((toBin (natOfDigits ['1', '0']) 16).drop 8).length = 8
       ∧ bitsVal ((toBin (natOfDigits ['1', '0']) 16).take 8) * 256
           + bitsVal ((toBin (natOfDigits ['1', '0']) 16).drop 8) = natOfDigits ['1', '0']) :=
  ⟨by decide, by decide,
    create_labeled_line ['1', '0'] [' ', 'x'] (by decide) (by decide)
      (by
        intro c hc
        simp only [List.head?_cons, Option.some.injEq] at hc
        subst hc
        decide)
      (by decide)⟩

/-- C7: a line with no leading digit run contributes no ByteGroups, removing
such a line leaves the whole output (header included) unchanged, and when no
line is labeled the output is exactly the header 256 and the terminator. -/
theorem create_skips_unlabeled :
    (∀ line, Extract_Number_String line = none → lineGroups line = [])
    ∧ (∀ (ls1 ls2 : List (List Char)) (l : List Char), Extract_Number_String l = none →
        Create_BinDataLines (ls1 ++ l :: ls2) = Create_BinDataLines (ls1 ++ ls2))
    ∧ (∀ ls : List (List Char), (∀ l ∈ ls, Extract_Number_String l = none) →
        Create_BinDataLines ls = [toBin 1 8, toBin 0 8, toBin 0 8])
    ∧ bitsVal (toBin 1 8) * 256 + bitsVal (toBin 0 8) = 256 := by
  refine ⟨?_, ?_, ?_, by decide⟩
  · intro line h
    simp [lineGroups, h]
  · intro ls1 ls2 l h
    rw [create_binDataLines_eq, create_binDataLines_eq]
    have : codeGroups (ls1 ++ l :: ls2) = codeGroups (ls1 ++ ls2) := by
      simp [codeGroups, lineGroups, h]
    rw [this]
  · intro ls h
    have hnil : codeGroups ls = [] := by
      refine List.flatMap_eq_nil_iff.mpr ?_
      intro l hl
      simp [lineGroups, h l hl]
    rw [create_binDataLines_eq, hnil]
    decide

/-- C7 witness: an unlabeled line vanishes, and a text of only unlabeled
lines yields exactly header and terminator groups. -/
theorem create_skips_unlabeled_witness :
    lineGroups [' ', 'a'] = []
    ∧ Create_BinDataLines [['h', 'i'], []] = [toBin 1 8, toBin 0 8, toBin 0 8] :=
  ⟨create_skips_unlabeled.1 [' ', 'a'] (by decide),
    create_skips_unlabeled.2.2.1 [['h', 'i'], []] (by decide)⟩

/-- The concrete line 65536 x, whose label does not fit in 16 bits. -/
def line65536 : List Char := ['6', '5', '5', '3', '6', ' ', 'x']

/-- C8 counterexample: on the line 65536 x the builder does not truncate the
label to its low 16 bits: the second label group has 9 characters, and the
two label groups differ from the low-16-bit big-endian encoding (which would
be two all-zero groups). -/
theorem label_overflow_cex :
    (lineGroups line65536).map List.length = [8, 9, 8, 8]
    ∧ (lineGroups line65536).take 2
        ≠ [toBin (65536 % 65536 / 256) 8, toBin (65536 % 65536 % 256) 8] := by decide

/-- C8 amended: for a parsed label above 65535 the builder still emits
exactly two label groups, but without truncation: `zfill(16)` leaves the long
binary string unchanged, the first group is its first 8 characters and the
second group all remaining ones, 9 or more. -/
theorem label_overflow_amended (line : List Char) (label : Nat) (rest : List Char)
    (hx : Extract_Number_String line = some (label, rest)) (hl : 65535 < label) :
    lineGroups line
        = (pyBin label).take 8 :: (pyBin label).drop 8 ::
            (utf8Encode (rest ++ ['\r'])).map (fun b => toBin b 8)
    ∧ 9 ≤ ((pyBin label).drop 8).length := by
  have h17 : 17 ≤ (pyBin label).length := by
    have := pyBin_length_ge label 16 (by norm_num; omega)
    omega
  have htb : toBin label 16 = pyBin label := toBin_eq_pyBin label 16 (by omega)
  constructor
  · simp [lineGroups, hx, htb]
  · simp [List.length_drop]
    omega

/-- C8 amended-claim witness at the concrete line 65536 x. -/
theorem label_overflow_amended_witness :
    Extract_Number_String line65536 = some (65536, ['x'])
    ∧ 65535 < 65536
    ∧ (lineGroups line65536
          = (pyBin 65536).take 8 :: (pyBin 65536).drop 8 ::
              (utf8Encode (['x'] ++ ['\r'])).map (fun b => toBin b 8)
       ∧ 9 ≤ ((pyBin 65536).drop 8).length) :=
  ⟨by decide, by decide,
    label_overflow_amended line65536 65536 ['x'] (by decide) (by decide)⟩

lemma takeWhile_replicate_neg {p : Char → Bool} {a : Char} (h : p a = false) (n : Nat) :
    (List.replicate n a).takeWhile p = [] := by
  cases n <;> simp [List.replicate_succ, List.takeWhile_cons, h]

lemma dropWhile_replicate_neg {p : Char → Bool} {a : Char} (h : p a = false) (n : Nat) :
    (List.replicate n a).dropWhile p = List.replicate n a := by
  cases n <;> simp [List.replicate_succ, List.dropWhile_cons, h]

/-- A single labeled line whose body is 65277 characters, so that the data
ByteGroup count reaches 65280 and the size header value reaches 65536. -/
def bigLine : List Char := '1' :: List.replicate 65277 'A'

lemma extract_repLine (n : Nat) :
    Extract_Number_String ('1' :: List.replicate n 'A') = some (1, List.replicate n 'A') := by
  have hA : Char.isDigit 'A' = false := by decide
  have h1 : Char.isDigit '1' = true := by decide
  have hS : isPySpace 'A' = false := by decide
  have hv : natOfDigits ['1'] = 1 := by decide
  simp [Extract_Number_String, List.takeWhile_cons, List.dropWhile_cons, h1,
    takeWhile_replicate_neg hA, dropWhile_replicate_neg hA, lstrip,
    dropWhile_replicate_neg hS, hv]

lemma flatMap_replicate_length {α β : Type} (f : α → List β) (a : α) :
    ∀ n : Nat, ((List.replicate n a).flatMap f).length = n * (f a).length := by
  intro n
  induction n with
  | zero => simp
  | succ n ih =>
    simp [List.replicate_succ, ih, Nat.succ_mul]
    omega

lemma lineGroups_repLine_len (n : Nat) :
    (lineGroups ('1' :: List.replicate n 'A')).length = n + 3 := by
  have hA : (utf8Char 'A').length = 1 := by decide
  have hR : (utf8Char '\r').length = 1 := by decide
  have hbody : (utf8Encode (List.replicate n 'A' ++ ['\r'])).length = n + 1 := by
    simp [utf8Encode, flatMap_replicate_length, hA, hR]
  simp [lineGroups, extract_repLine n, hbody]

lemma codeGroups_bigLine_len : (codeGroups [bigLine]).length = 65280 := by
  have h := lineGroups_repLine_len 65277
  simp only [codeGroups, List.flatMap_cons, List.flatMap_nil, List.append_nil, bigLine]
  rw [h]

/-- C1: at the failing input (one line, label 1, 65277-character body) the
data ByteGroup count is 65280, the header value overflows to 65536, and the
first two output groups are the 8-and-9-character slices of the 17-digit
binary string: read as two 8-bit bytes they decode to 32768, not to
65280 + 256 = 65536 as the size-header invariant requires. -/
theorem header_mismatch_on_big_input :
    (Create_BinDataLines [bigLine]).take 2
        = [(toBin 65536 16).take 8, (toBin 65536 16).drop 8]
    ∧ bitsVal ((toBin 65536 16).take 8) * 256 + bitsVal ((toBin 65536 16).drop 8) = 32768
    ∧ 65280 + 256 ≠ 32768 := by
  refine ⟨?_, by decide, by decide⟩
  rw [create_binDataLines_eq, codeGroups_bigLine_len]
  have h65536 : (65280 : Nat) + 256 = 65536 := by norm_num
  simp only [headerGroups, h65536, List.append_assoc]
  exact List.take_left' (by simp)

/-- C10: at the same failing input, all parsed labels are at most 65535, yet
the ByteGroup at index 1 (the low header group) has 9 characters instead of
8, breaking the 8-characters-per-group invariant Encode_Data relies on. -/
theorem header_group_malformed_on_big_input :
    ((Create_BinDataLines [bigLine]).take 2).map List.length = [8, 9] := by
  rw [create_binDataLines_eq, codeGroups_bigLine_len]
  simp only [headerGroups, List.append_assoc]
  rw [List.take_left' (by simp)]
  decide
